import Mathlib

/-!
# Verification of the esdb event store core

Shallow embedding of the `blocks` package (block-framed reader), the
`stream` package (`openStream`: append log with per-index back-pointer
chains) and the `cluster` DB (multi-file stream manager with rotation and
continuation cursors), translated from the Go sources, together with
theorems settling the specification claims.

Bytes are modelled as natural numbers, byte strings as `List Nat`,
Go maps as association lists with zero-value defaults, and the
underlying `io.ReadSeeker` of a block reader as the remaining byte list
of a `bytes.Reader`.
-/

/-! ## Block codec (package `blocks`) -/

/-- Modelled from the spec: `headerLen(blockSize)` lives in the blocks
package outside the given sources.  The header width is 2 bytes if the
block size fits in 16 bits, 4 if it fits in 32, otherwise 8. -/
def headerLen (blockSize : Nat) : Nat :=
  if blockSize ≤ 0xFFFF then 2 else if blockSize ≤ 0xFFFFFFFF then 4 else 8

/-- Little-endian encoding of `n` into exactly `w` bytes. -/
def leEncode (w n : Nat) : List Nat :=
  match w with
  | 0 => []
  | w + 1 => (n % 256) :: leEncode w (n / 256)

/-- Little-endian decoding of a byte list (as done by `Reader.parseHeader`
via `binary.Read` with `binary.LittleEndian`). -/
def leDecode (l : List Nat) : Nat :=
  match l with
  | [] => 0
  | b :: rest => b + 256 * leDecode rest

/-- State of `blocks.Reader`: the logical-payload buffer, the raw scratch
buffer, the bytes remaining in the underlying `bytes.Reader`, and the
block size. -/
structure Reader where
  buffer : List Nat
  scratch : List Nat
  rest : List Nat
  blockSize : Nat
deriving Repr, DecidableEq

/-- `blocks.NewByteReader`: fresh reader over a byte slice. -/
def mkReader (b : List Nat) (blockSize : Nat) : Reader :=
  { buffer := [], scratch := [], rest := b, blockSize := blockSize }

/-- `Reader.parse`: consume one header from `scratch`, decode its
little-endian payload length, and move that many bytes (or as many as
remain) from `scratch` to `buffer`.  A short `scratch` leaves the unread
tail of the Go `head` slice as zero bytes. -/
def Reader.parse (r : Reader) : Reader :=
  let hl := headerLen r.blockSize
  let head0 := r.scratch.take hl
  let head := head0 ++ List.replicate (hl - head0.length) 0
  let rest1 := r.scratch.drop hl
  let plen := leDecode head
  { r with scratch := rest1.drop plen, buffer := r.buffer ++ rest1.take plen }

/-- One-loop-at-a-time body of `Reader.fetch`, with explicit fuel; each
iteration reads up to one physical block (`headerLen + blockSize` bytes)
from the underlying reader into `scratch` and parses when more than a
header arrived.  `bytes.Reader.Read` yields `io.EOF` exactly when no
bytes remain.  The returned `Bool` records whether an error (EOF) was
returned.  The fuel `r.rest.length + 1` supplied by `Reader.fetch` is
always sufficient, since every non-terminating iteration consumes at
least one byte of the underlying reader. -/
def Reader.fetchAux (fuel : Nat) (r : Reader) (length : Nat) : Reader × Bool :=
  match fuel with
  | 0 => (r, true)
  | fuel + 1 =>
    if r.buffer.length ≥ length then (r, false)
    else
      let w := headerLen r.blockSize + r.blockSize
      let chunk := r.rest.take w
      let r1 := { r with rest := r.rest.drop w, scratch := r.scratch ++ chunk }
      let r2 := if chunk.length > headerLen r.blockSize then r1.parse else r1
      if chunk.length = 0 then (r2, true)
      else Reader.fetchAux fuel r2 length

/-- `Reader.fetch`. -/
def Reader.fetch (r : Reader) (length : Nat) : Reader × Bool :=
  Reader.fetchAux (r.rest.length + 1) r length

/-- `Reader.Read`: fetch enough blocks for `n` bytes then drain up to `n`
bytes from the logical buffer. -/
def Reader.read (r : Reader) (n : Nat) : List Nat × Reader :=
  let r' := (r.fetch n).1
  (r'.buffer.take n, { r' with buffer := r'.buffer.drop n })

/-- `Reader.Peek`: fetch then return `buffer.Bytes()[:n]` without
consuming.  Go slicing panics when fewer than `n` bytes are buffered;
the panic is modelled as `none`. -/
def Reader.peek (r : Reader) (n : Nat) : Option (List Nat) :=
  let r' := (r.fetch n).1
  if n ≤ r'.buffer.length then some (r'.buffer.take n) else none

/-- One physical block as laid out on disk by the block writer (spec
§4.1): little-endian `payload_len` header, the payload, and zero padding
up to the physical block width. -/
def encBlock (blockSize : Nat) (p : List Nat) : List Nat :=
  leEncode (headerLen blockSize) p.length ++ p ++
    List.replicate (blockSize - p.length) 0

/-- A sequence of physical blocks with the given payloads. -/
def writeBlocks (blockSize : Nat) (ps : List (List Nat)) : List Nat :=
  (ps.map (encBlock blockSize)).flatten

/-- Every block except possibly the last carries a full `blockSize`
payload. -/
def nonFinalFull (blockSize : Nat) (ps : List (List Nat)) : Prop :=
  ∀ p ∈ ps.dropLast, p.length = blockSize

/-! ## Stream file (package `stream`, `openStream`) -/

/-- Go map lookup with the `int64` zero value for missing keys
(`s.tails[index]`, `event.offsets[index]`). -/
def mlookup (m : List (String × Nat)) (k : String) : Nat :=
  match m with
  | [] => 0
  | (k', v) :: rest => if k' = k then v else mlookup rest k

/-- Go map insertion/update. -/
def minsert (m : List (String × Nat)) (k : String) (v : Nat) : List (String × Nat) :=
  match m with
  | [] => [(k, v)]
  | (k', v') :: rest => if k' = k then (k, v) :: rest else (k', v') :: minsert rest k v

/-- Number of bytes of the unsigned varint encoding of `n`, written with
structural fuel (`n` itself bounds the 7-bit group count). -/
def uvarintLenAux : Nat → Nat → Nat
  | 0, _ => 1
  | fuel + 1, n => if n < 128 then 1 else 1 + uvarintLenAux fuel (n / 128)

/-- Number of bytes of the unsigned varint encoding of `n`. -/
def uvarintLen (n : Nat) : Nat :=
  uvarintLenAux n n

/-- Modelled from the spec: the stream event codec (`newEvent`/`push`)
lives outside the given sources; per §4.2 an event is encoded as a
uvarint length of everything following, a uvarint index count, for each
index a uvarint name length, the name bytes and a uvarint back-offset,
then the payload bytes.  Only the encoded size is needed here. -/
def eventSize (data : List Nat) (offsets : List (String × Nat)) : Nat :=
  let body := uvarintLen offsets.length +
    (offsets.map (fun p => uvarintLen p.1.length + p.1.length + uvarintLen p.2)).sum +
    data.length
  uvarintLen body + body

/-- One decoded event as stored in a stream file: its payload and its
per-index back-pointer map. -/
structure EventRec where
  data : List Nat
  offsets : List (String × Nat)
deriving Repr, DecidableEq

/-- Event lookup by file offset (`pullEvent` after a `Seek`). -/
def elookup (evs : List (Nat × EventRec)) (o : Nat) : Option EventRec :=
  match evs with
  | [] => none
  | (o', e) :: rest => if o' = o then some e else elookup rest o

/-- Length of `MAGIC_HEADER`; the DB's mock accounting (`mockoffset = 10`)
fixes it at 10 bytes. -/
def MAGIC_HEADER_LEN : Nat := 10

inductive StreamErr where
  | writingToClosedStream
  | corruptedEvent
deriving Repr, DecidableEq

/-- In-memory state of `openStream` together with the events persisted in
its file, keyed by their file offsets. -/
structure OpenStream where
  tails : List (String × Nat)
  closed : Bool
  offset : Nat
  length : Nat
  events : List (Nat × EventRec)
deriving Repr, DecidableEq

/-- `createOpenStream`: fresh stream holding just the magic header. -/
def freshStream : OpenStream :=
  { tails := [], closed := false, offset := MAGIC_HEADER_LEN, length := 0, events := [] }

/-- `openStream.Write`: reject when closed; build the event's back-pointer
map from the current tails (zero default); append the encoded event at
the current offset; point every supplied index's tail at the old offset;
advance the offset by the bytes written and bump the length. -/
def OpenStream.Write (s : OpenStream) (data : List Nat) (indexes : List String) :
    Except StreamErr (Nat × OpenStream) :=
  if s.closed then .error .writingToClosedStream
  else
    let offsets := indexes.foldl (fun m i => minsert m i (mlookup s.tails i)) []
    let written := eventSize data offsets
    .ok (written,
      { tails := indexes.foldl (fun m i => minsert m i s.offset) s.tails,
        closed := s.closed,
        offset := s.offset + written,
        length := s.length + 1,
        events := s.events ++ [(s.offset, ⟨data, offsets⟩)] })

/-- The `for off > 0` loop of `openStream.ScanIndex`: seek to `off`, pull
the event, invoke the scanner (whose result the source discards), and
follow the event's own back-pointer for the index.  Returns the list of
events delivered to the scanner; `none` models a loop that does not
terminate within the given fuel. -/
def scanIndexLoop (evs : List (Nat × EventRec)) (index : String)
    (scanner : EventRec → Bool) (off : Nat) (fuel : Nat) :
    Option (Except StreamErr (List EventRec)) :=
  match fuel with
  | 0 => if off = 0 then some (.ok []) else none
  | fuel + 1 =>
    if off = 0 then some (.ok [])
    else
      match elookup evs off with
      | none => some (.error .corruptedEvent)
      | some e =>
        let _ := scanner e
        (scanIndexLoop evs index scanner (mlookup e.offsets index) fuel).map
          (fun r => r.map (fun l => e :: l))

/-- `openStream.ScanIndex`: walk the back-pointer chain of `index` from
its tail.  The fuel `s.length` means a `some` result is exactly
termination at 0 within at most `length` hops. -/
def OpenStream.ScanIndex (s : OpenStream) (index : String) (scanner : EventRec → Bool) :
    Option (Except StreamErr (List EventRec)) :=
  scanIndexLoop s.events index scanner (mlookup s.tails index) s.length

/-- A stream built from a fresh file by a sequence of `Write` calls
(each a payload and its index labels).  `Write` only fails on a closed
stream, which never arises here. -/
def buildStream (ws : List (List Nat × List String)) : OpenStream :=
  ws.foldl (fun s w =>
    match s.Write w.1 w.2 with
    | .ok (_, s') => s'
    | .error _ => s) freshStream

/-! ## DB / stream manager (package `cluster`) -/

inductive DBErr where
  | noSuchFile
  | corruptedEvent
  | recoveryUnavailable
  | fatal
deriving Repr, DecidableEq

/-- File lookup in the DB's directory, keyed by commit number (the path
is a deterministic function of the commit). -/
def flookup (fs : List (Nat × OpenStream)) (c : Nat) : Option OpenStream :=
  match fs with
  | [] => none
  | (c', f) :: rest => if c' = c then some f else flookup rest c

/-- Remove the file at a commit (`os.Remove`). -/
def fdelete : List (Nat × OpenStream) → Nat → List (Nat × OpenStream)
  | [], _ => []
  | (c', f) :: rest, c =>
    if c' = c then fdelete rest c else (c', f) :: fdelete rest c

/-- Create or replace the file at a commit. -/
def fset (fs : List (Nat × OpenStream)) (c : Nat) (f : OpenStream) : List (Nat × OpenStream) :=
  fdelete fs c ++ [(c, f)]

/-- `openStream.Close` as it affects on-disk state: the file becomes
closed (sentinel, SST of the tails and footer written); the tails stay
available through the SST. -/
def fclose : List (Nat × OpenStream) → Nat → List (Nat × OpenStream)
  | [], _ => []
  | (c', f) :: rest, c =>
    if c' = c then (c', { f with closed := true }) :: fclose rest c
    else (c', f) :: fclose rest c

/-- State of `cluster.DB`.  `hasStream` models `db.stream != nil`; when
true the open handle is the file at commit `current`.  `files` is the
stream directory on disk and `cache` the set of commits present in
`db.streams`. -/
structure DBState where
  current : Nat
  closed : List Nat
  mostRecent : Int
  hasStream : Bool
  mockoffset : Nat
  files : List (Nat × OpenStream)
  cache : List Nat
deriving Repr, DecidableEq

/-- `db.addClosed`: append the commit unless already present. -/
def addClosed (closed : List Nat) (c : Nat) : List Nat :=
  if c ∈ closed then closed else closed ++ [c]

/-- `db.setCurrent`: set `current`, reset the mock offset, remove any
stale file at the commit and create a fresh open stream there. -/
def DBState.setCurrent (db : DBState) (commit : Nat) : DBState :=
  { db with
    current := commit, mockoffset := 10,
    files := fset db.files commit freshStream, hasStream := true }

/-- `db.retrieveStream`: the live handle for `current`, else the cache,
else open the file on disk (caching it when closed).  A missing file, or
an open file found where a closed one was expected, yields no stream;
`fetchMissing` would then call the external peer-recovery collaborator.
Modelled from the spec: peer recovery (`RecoverStream`) is an external
collaborator fetching the file from a remote node; with no peers in the
model it reports an error, a path no claim exercises. -/
def DBState.retrieveStream (db : DBState) (commit : Nat) (fetchMissing : Bool) :
    Option OpenStream × DBState × Option DBErr :=
  if db.current = commit ∧ db.hasStream then (flookup db.files commit, db, none)
  else if commit ∈ db.cache then (flookup db.files commit, db, none)
  else
    match flookup db.files commit with
    | none =>
      if fetchMissing then (none, db, some .recoveryUnavailable)
      else (none, db, some .noSuchFile)
    | some f =>
      if f.closed then (some f, { db with cache := db.cache ++ [commit] }, none)
      else if fetchMissing then (none, db, some .recoveryUnavailable)
      else (none, db, none)

/-- `db.Rotate`: if a closed file already exists at the commit, adopt it
(replay path); otherwise close the current stream if any, record it as
closed, take the detached consensus snapshot (no DB state change) and
start a fresh stream at the commit. -/
def DBState.Rotate (db : DBState) (commit : Nat) (_term : Nat) : DBState :=
  let r := db.retrieveStream commit false
  let db := r.2.1
  match r.1 with
  | some f =>
    if f.closed then
      { db with
        closed := addClosed db.closed commit, hasStream := false,
        mockoffset := 10, current := commit }
    else
      let db :=
        if db.hasStream then
          { db with
            files := fclose db.files db.current,
            closed := addClosed db.closed db.current }
        else db
      db.setCurrent commit
  | none =>
    let db :=
      if db.hasStream then
        { db with
          files := fclose db.files db.current,
          closed := addClosed db.closed db.current }
      else db
    db.setCurrent commit

/-- `NewDb`: zero-valued DB followed by `Rotate(1, 0)`. -/
def DBState.new : DBState :=
  DBState.Rotate
    { current := 0, closed := [], mostRecent := 0, hasStream := false,
      mockoffset := 0, files := [], cache := [] } 1 0

/-- Modelled from the spec: the db-level `(name, value)` index pair is
encoded for the stream layer by concatenating `name:value` (§9); the
core treats the label as opaque. -/
def streamIndex (p : String × String) : String :=
  p.1 ++ ":" ++ p.2

/-- Modelled from the spec: `stream.Serialize(body, indexes, offsets)`
lives outside the given sources; the mock path only accounts the
would-be event's byte length. -/
def serializeSize (body : List Nat) (indexes : List (String × String)) : Nat :=
  eventSize body (indexes.map (fun p => (streamIndex p, 0)))

/-- `db.Write`: a commit at or below `current` is a duplicate replay,
dropped with success and no state change; with no open stream only the
mock offset advances (and `MostRecent` is left alone); otherwise the
body is appended to the current stream and `MostRecent` raised to the
timestamp if larger.  Stream errors are `log.Fatal` in the source,
modelled as a fatal error. -/
def DBState.Write (db : DBState) (commit : Nat) (body : List Nat)
    (indexes : List (String × String)) (timestamp : Int) : Except DBErr DBState :=
  if commit ≤ db.current then .ok db
  else if ¬db.hasStream then
    .ok { db with mockoffset := db.mockoffset + serializeSize body indexes }
  else
    match flookup db.files db.current with
    | none => .error .fatal
    | some f =>
      match f.Write body (indexes.map streamIndex) with
      | .error _ => .error .fatal
      | .ok (_, f') =>
        let db := { db with files := fset db.files db.current f' }
        .ok (if timestamp > db.mostRecent then { db with mostRecent := timestamp } else db)

/-- `db.Recovery`, on the already-decoded snapshot blob: restore
`current` (creating a fresh stream there), `MostRecent`, and add each
closed commit. -/
def DBState.Recovery (db : DBState) (current : Nat) (mostRecent : Int)
    (closedList : List Nat) : DBState :=
  let db := db.setCurrent current
  let db := { db with mostRecent := mostRecent }
  { db with closed := closedList.foldl addClosed db.closed }

/-- `db.Compress`: drop the closed commits in `(start, stop]` and their
cached handles, forget the handle at `start`, and move a precomputed
compressed artifact into place.  The `.tmpstream` artifact is produced
by an external compactor and absent here, so the rename branch is a
no-op. -/
def DBState.Compress (db : DBState) (start stop : Nat) : DBState :=
  let dropped := db.closed.filter (fun c => ¬(c ≤ start ∨ stop < c))
  { db with
    closed := db.closed.filter (fun c => c ≤ start ∨ stop < c),
    cache := (db.cache.filter (fun c => c ∉ dropped)).filter (fun c => c ≠ start) }

/-- `db.prev`: the largest closed commit strictly below `commit`
(0 when none). -/
def DBState.prev (db : DBState) (commit : Nat) : Nat :=
  db.closed.foldl (fun r c => if c < commit ∧ r < c then c else r) 0

/-- `math.MaxUint64`. -/
def maxU64 : Nat := 2 ^ 64 - 1

/-- `db.next`: the smallest member of `closed ∪ {current}` strictly above
`commit`, or 0 when none. -/
def DBState.next (db : DBState) (commit : Nat) : Nat :=
  let r := db.closed.foldl (fun r c => if commit < c ∧ c < r then c else r) maxU64
  let r := if commit < db.current ∧ db.current < r then db.current else r
  if r = maxU64 then 0 else r

/-- `parseContinuation`: with an empty cursor, a reverse scan starts at
`current` and a forward iterate at the first recorded closed commit;
a non-empty cursor carries an explicit `commit:offset` pair.  Cursor
strings are modelled in parsed form, `none` standing for the empty
string. -/
def DBState.parseContinuation (db : DBState) (cont : Option (Nat × Nat)) (reverse : Bool) :
    Nat × Nat :=
  match cont with
  | some (c, o) => (c, o)
  | none =>
    (if ¬reverse ∧ db.closed.length > 0 then db.closed.headD 0 else db.current, 0)

/-- `buildContinuation`: commit 0 encodes as the empty cursor. -/
def buildContinuation (commit offset : Nat) : Option (Nat × Nat) :=
  if commit > 0 then some (commit, offset) else none

/-! ## Stream-level reads used by the DB (spec §4.4)

The `stream.Stream` interface the DB dispatches to (`ScanIndex` with a
starting offset, `Iterate` with a starting offset and a next-offset
result) lies outside the given sources, which only contain its callers;
both are modelled from the spec.  Scanners are stateful:
`σ → EventRec → σ × Bool`, `false` meaning stop. -/

/-- Loop of the offset-taking reverse scan: read the event at `off`,
pass it to the scanner, follow the event's own back-pointer; stop when
the scanner stops or the offset reaches 0.  Returns the final scanner
state and the delivered events; `none` is fuel exhaustion. -/
def scanIndexFromLoop {σ : Type} (evs : List (Nat × EventRec)) (label : String)
    (cb : σ → EventRec → σ × Bool) (off : Nat) (st : σ) (fuel : Nat) :
    Option (Except DBErr (σ × List EventRec)) :=
  match fuel with
  | 0 => if off = 0 then some (.ok (st, [])) else none
  | fuel + 1 =>
    if off = 0 then some (.ok (st, []))
    else
      match elookup evs off with
      | none => some (.error .corruptedEvent)
      | some e =>
        let (st', cont) := cb st e
        if cont then
          (scanIndexFromLoop evs label cb (mlookup e.offsets label) st' fuel).map
            (fun r => r.map (fun p => (p.1, e :: p.2)))
        else some (.ok (st', [e]))

/-- Modelled from the spec: `ScanIndex(name, value, from_offset, scanner)`
(§4.4) — with `from_offset = 0` start at the index's tail (in-memory
tails for an open file, the identical SST entry for a closed one),
otherwise at `from_offset`; the stream layer sees the label
`name:value`. -/
def OpenStream.ScanIndexFrom {σ : Type} (s : OpenStream) (name value : String)
    (fromOff : Nat) (cb : σ → EventRec → σ × Bool) (st : σ) (fuel : Nat) :
    Option (Except DBErr (σ × List EventRec)) :=
  let label := name ++ ":" ++ value
  let off := if fromOff = 0 then mlookup s.tails label else fromOff
  scanIndexFromLoop s.events label cb off st fuel

/-- Forward walk over the events at or past the starting offset: deliver
each to the scanner; on stop return the offset just past the delivered
event (§8.5's "resume is past the last event delivered": the next
event's offset, or the write position after the last one); on
exhaustion return 0. -/
def iterateLoop {σ : Type} (endOff : Nat) (cb : σ → EventRec → σ × Bool) :
    List (Nat × EventRec) → σ → Nat × σ × List EventRec
  | [], st => (0, st, [])
  | (_, e) :: rest, st =>
    let (st', cont) := cb st e
    if cont then
      let (off, st'', l) := iterateLoop endOff cb rest st'
      (off, st'', e :: l)
    else
      ((match rest with
        | [] => endOff
        | (o2, _) :: _ => o2), st', [e])

/-- Modelled from the spec: `Iterate(from_offset, scanner)` (§4.4) —
start at the caller's offset, or just past the magic header for a fresh
read, and return the resumption offset (0 meaning "advance to the next
file"). -/
def OpenStream.IterateFrom {σ : Type} (s : OpenStream) (fromOff : Nat)
    (cb : σ → EventRec → σ × Bool) (st : σ) : Nat × σ × List EventRec :=
  let start := if fromOff = 0 then MAGIC_HEADER_LEN else fromOff
  iterateLoop s.offset cb (s.events.filter (fun p => start ≤ p.1)) st

/-! ## DB-level Scan and Iterate -/

/-- The `for !stopped && commit > 0` loop of `db.Scan`.  The DB-level
callback records the event's `name:value` back-pointer as the new
resume offset before invoking the caller's scanner; when a file's chain
is exhausted without stopping, step to the previous closed commit and
reset the offset to 0.  Returns the final DB, commit, offset, scanner
state, stop flag and all delivered events. -/
def scanCommitsLoop {σ : Type} (name value : String) (cb : σ → EventRec → σ × Bool)
    (db : DBState) (commit offset : Nat) (st : σ) (acc : List EventRec)
    (fuel inner : Nat) :
    Option (Except DBErr (DBState × Nat × Nat × σ × Bool × List EventRec)) :=
  match fuel with
  | 0 => none
  | fuel + 1 =>
    if commit > 0 then
      let r := db.retrieveStream commit true
      let db := r.2.1
      match r.2.2 with
      | some e => some (.error e)
      | none =>
        match r.1 with
        | none => some (.error .fatal)
        | some s =>
          let label := name ++ ":" ++ value
          match s.ScanIndexFrom name value offset
            (fun (p : Nat × σ × Bool) e =>
              let off' := mlookup e.offsets label
              let (u, cont) := cb p.2.1 e
              ((off', u, !cont), cont)) (offset, st, false) inner with
          | none => none
          | some (.error e) => some (.error e)
          | some (.ok ((off', u, stopped), delivered)) =>
            if stopped then some (.ok (db, commit, off', u, true, acc ++ delivered))
            else scanCommitsLoop name value cb db (db.prev commit) 0 u
              (acc ++ delivered) fuel inner
    else some (.ok (db, commit, offset, st, false, acc))

/-- `db.Scan`: resolve the continuation, run the reverse indexed scan
across files, step one commit back when the scanner stopped exactly at
offset 0, and build the returned cursor — with offset 0, as in the
source (`buildContinuation(commit, 0)`). -/
def DBState.Scan {σ : Type} (db : DBState) (name value : String)
    (cont : Option (Nat × Nat)) (cb : σ → EventRec → σ × Bool) (st : σ)
    (fuel inner : Nat) :
    Option (Except DBErr (Option (Nat × Nat) × DBState × σ × List EventRec)) :=
  let c := db.parseContinuation cont true
  (scanCommitsLoop name value cb db c.1 c.2 st [] fuel inner).map
    (fun r => r.map (fun p =>
      let db' := p.1
      let commit := p.2.1
      let offset := p.2.2.1
      let stopped := p.2.2.2.2.1
      let commit := if stopped ∧ offset = 0 then db'.prev commit else commit
      (buildContinuation commit 0, db', p.2.2.2.1, p.2.2.2.2.2)))

/-- The `for !stopped && commit > 0` loop of `db.Iterate`: run the
forward iteration of one file, then on exhaustion step to the next
commit with offset 0. -/
def iterateCommitsLoop {σ : Type} (cb : σ → EventRec → σ × Bool)
    (db : DBState) (commit offset : Nat) (st : σ) (acc : List EventRec)
    (fuel : Nat) :
    Option (Except DBErr (DBState × Nat × Nat × σ × Bool × List EventRec)) :=
  match fuel with
  | 0 => none
  | fuel + 1 =>
    if commit > 0 then
      let r := db.retrieveStream commit true
      let db := r.2.1
      match r.2.2 with
      | some e => some (.error e)
      | none =>
        match r.1 with
        | none => some (.error .fatal)
        | some s =>
          let q := s.IterateFrom offset
            (fun (p : σ × Bool) e =>
              let (u, cont) := cb p.1 e
              ((u, !cont), cont)) (st, false)
          let off' := q.1
          let u := q.2.1.1
          let stopped := q.2.1.2
          let delivered := q.2.2
          if stopped then some (.ok (db, commit, off', u, true, acc ++ delivered))
          else iterateCommitsLoop cb db (db.next commit) 0 u (acc ++ delivered) fuel
    else some (.ok (db, commit, offset, st, false, acc))

/-- `db.Iterate`: resolve the continuation, iterate forward across
files, and return `buildContinuation(commit, offset)` over the final
commit and offset. -/
def DBState.Iterate {σ : Type} (db : DBState) (cont : Option (Nat × Nat))
    (cb : σ → EventRec → σ × Bool) (st : σ) (fuel : Nat) :
    Option (Except DBErr (Option (Nat × Nat) × DBState × σ × List EventRec)) :=
  let c := db.parseContinuation cont false
  (iterateCommitsLoop cb db c.1 c.2 st [] fuel).map
    (fun r => r.map (fun p =>
      (buildContinuation p.2.1 p.2.2.1, p.1, p.2.2.2.1, p.2.2.2.2.2)))

/-! ## Association-map lemmas -/

theorem mlookup_minsert (m : List (String × Nat)) (k j : String) (v : Nat) :
    mlookup (minsert m k v) j = if k = j then v else mlookup m j := by
  induction m with
  | nil => simp [minsert, mlookup]
  | cons p rest ih =>
    obtain ⟨k', v'⟩ := p
    by_cases hk : k' = k
    · subst hk
      simp only [minsert, if_pos rfl, mlookup]
      by_cases hj : k' = j <;> simp [hj]
    · simp only [minsert, if_neg hk, mlookup]
      by_cases hj : k' = j
      · subst hj
        have hne : ¬k = k' := fun h => hk h.symm
        simp [mlookup, hne]
      · simp [mlookup, hj, ih]

theorem mlookup_foldl_minsert (f : String → Nat) (indexes : List String)
    (m : List (String × Nat)) (j : String) :
    mlookup (indexes.foldl (fun m i => minsert m i (f i)) m) j =
      if j ∈ indexes then f j else mlookup m j := by
  induction indexes generalizing m with
  | nil => simp
  | cons a rest ih =>
    simp only [List.foldl_cons, ih, mlookup_minsert]
    by_cases hr : j ∈ rest
    · simp [hr]
    · by_cases ha : a = j
      · subst ha
        simp [hr]
      · have : j ∉ (a :: rest) := by
          simp [ha, hr]
          exact fun h => absurd h.symm ha
        simp [hr, ha, this]

/-! ## Claim theorems: stream write (C7) -/

/-- Claim C7: after every successful `openStream.Write(data, indexes)` on
an open stream with write position `o`, every supplied index's tail is
the old offset `o`, `offset` is `o` plus the bytes written, and `length`
grew by exactly 1. -/
theorem c7_write_postcondition (s : OpenStream) (data : List Nat) (indexes : List String)
    (h : s.closed = false) :
    ∃ w s', s.Write data indexes = .ok (w, s') ∧
      (∀ i ∈ indexes, mlookup s'.tails i = s.offset) ∧
      s'.offset = s.offset + w ∧
      s'.length = s.length + 1 := by
  simp only [OpenStream.Write, h, Bool.false_eq_true, if_false]
  exact ⟨_, _, rfl,
    fun i hi => by rw [mlookup_foldl_minsert (fun _ => s.offset)]; simp [hi],
    rfl, rfl⟩

/-- Claim C7 witness: a concrete successful write on a fresh stream. -/
theorem c7_write_postcondition_witness :
    freshStream.closed = false ∧
    ∃ w s', freshStream.Write [5] ["i"] = .ok (w, s') ∧
      (∀ i ∈ ["i"], mlookup s'.tails i = freshStream.offset) ∧
      s'.offset = freshStream.offset + w ∧
      s'.length = freshStream.length + 1 :=
  ⟨rfl, c7_write_postcondition freshStream [5] ["i"] rfl⟩

/-! ## Claim theorems: DB duplicate replay (C9) -/

/-- Claim C9: `DB.Write` with `commit ≤ current` returns success and
leaves the whole DB state (bytes, current, closed, MostRecent, open
stream) unchanged. -/
theorem c9_old_commit_noop (db : DBState) (commit : Nat) (body : List Nat)
    (indexes : List (String × String)) (timestamp : Int)
    (h : commit ≤ db.current) :
    db.Write commit body indexes timestamp = .ok db := by
  simp [DBState.Write, h]

/-- Claim C9 witness: a replayed commit 1 on a fresh DB (current 1). -/
theorem c9_old_commit_noop_witness :
    1 ≤ DBState.new.current ∧
    DBState.new.Write 1 [5] [("u", "1")] 7 = .ok DBState.new :=
  ⟨by decide, c9_old_commit_noop DBState.new 1 [5] [("u", "1")] 7 (by decide)⟩

/-! ## Claim theorems: block reader (C6 counterexample, C10) -/

/-- Claim C6 counterexample: two well-formed fixed-width blocks with a
short non-final payload (`[97]` then `[98,99,100,101]`, block size 4).
`Read` yields only `[97]`: `parse` leaves the first block's padding in
`scratch`, which is then misread as the next header, so the remaining
payload bytes are lost instead of being concatenated. -/
theorem c6_counterexample :
    (Reader.read (mkReader (writeBlocks 4 [[97], [98, 99, 100, 101]]) 4) 5).1 = [97] ∧
    ([[97], [98, 99, 100, 101]] : List (List Nat)).flatten = [97, 98, 99, 100, 101] :=
  ⟨rfl, rfl⟩

/-- Claim C10: `Peek(n)` with fewer than `n` payload bytes available
does not return a short slice or an error — `buffer.Bytes()[:n]` panics
(modelled as `none`).  Concretely, peeking 2 bytes at a file holding a
single 1-byte payload. -/
theorem c10_peek_panics :
    Reader.peek (mkReader (writeBlocks 4 [[42]]) 4) 2 = none ∧
    Reader.peek (mkReader [] 4) 1 = none :=
  ⟨rfl, rfl⟩

/-! ## Claim theorems: continuation cursors (C1, C2) -/

/-- A limit scanner in the style of the HTTP front-end: count events and
keep going while the count stays below `k`. -/
def stopAfter (k : Nat) : Nat → EventRec → Nat × Bool :=
  fun n _ => (n + 1, n + 1 < k)

/-- Fresh DB after `Write(2, [97], u:1)` — one event at offset 10 in the
live stream of commit 1. -/
def exC2db : DBState :=
  (DBState.new.Write 2 [97] [("u", "1")] 100).toOption.getD DBState.new

/-- Fresh DB after `Write(2, [97], u:1)` and `Write(3, [98], u:1)` — two
chained events at offsets 10 and 18 in the live stream of commit 1. -/
def exC1db : DBState :=
  (exC2db.Write 3 [98] [("u", "1")] 200).toOption.getD DBState.new

/-- The first event of `exC1db` (chain end). -/
def evA : EventRec := ⟨[97], [("u:1", 0)]⟩

/-- The second event of `exC1db` (back-pointer to offset 10). -/
def evB : EventRec := ⟨[98], [("u:1", 10)]⟩

/-- Claim C1, evaluated at the failing input: on `exC1db` a reverse scan
whose scanner stops after one event stops at back-pointer offset 10 > 0
inside commit 1, yet `DB.Scan` returns the cursor `(1, 0)` —
`buildContinuation(commit, 0)` discards the tracked resume offset.
Resuming from `(1, 0)` restarts at the index tail, delivering
`[evB, evA]`, so the two calls concatenate to `[evB, evB, evA]` while a
single unlimited call delivers `[evB, evA]`: the claimed no-gaps,
no-duplicates resumption fails. -/
theorem c1_scan_continuation_bug :
    (exC1db.Scan "u" "1" none (stopAfter 1) 0 5 5).map
        (·.map (fun p => (p.1, p.2.2.2))) =
      some (.ok (some (1, 0), [evB])) ∧
    (exC1db.Scan "u" "1" (some (1, 0)) (stopAfter 10) 0 5 5).map
        (·.map (fun p => p.2.2.2)) =
      some (.ok [evB, evA]) ∧
    (exC1db.Scan "u" "1" none (stopAfter 10) 0 5 5).map
        (·.map (fun p => p.2.2.2)) =
      some (.ok [evB, evA]) ∧
    [evB] ++ [evB, evA] ≠ [evB, evA] :=
  ⟨rfl, rfl, rfl, by decide⟩

/-- Claim C2, evaluated at the failing input: on `exC2db` a forward
iteration that exhausts the live stream (commit 1, tail offset 18)
without stopping returns the empty cursor — the loop overwrites `commit`
with `next(commit) = 0` before exiting — instead of the claimed current
`(commit, offset)` pair.  A later call with the empty cursor therefore
restarts and redelivers `evA` (first conjunct again), whereas resuming
at the actual tail `(1, 18)` would deliver nothing new. -/
theorem c2_iterate_tail_bug :
    (exC2db.Iterate none (stopAfter 10) 0 5).map
        (·.map (fun p => (p.1, p.2.2.2))) =
      some (.ok (none, [evA])) ∧
    (exC2db.Iterate (some (1, 18)) (stopAfter 10) 0 5).map
        (·.map (fun p => p.2.2.2)) =
      some (.ok ([] : List EventRec)) :=
  ⟨rfl, rfl⟩

/-! ## Claim theorems: rotation state machine, concrete parts (C4, C5) -/

/-- Claim C4 counterexample: the operation sequence `NewDb`,
`Rotate(2, 0)`, `Rotate(1, 0)` drives the DB through the replay path
(`addClosed(commit); current = commit`) and ends with `current = 1`
a member of `closed = [1]`, violating the claimed invariant. -/
theorem c4_counterexample :
    ((DBState.new.Rotate 2 0).Rotate 1 0).current ∈
      ((DBState.new.Rotate 2 0).Rotate 1 0).closed := by
  decide

/-- Claim C5 counterexample: from a fresh DB, `Rotate(2, 0)` applied
twice differs from applying it once — the second application closes the
just-created stream at commit 2 and adds 2 to `closed` (`[1, 2]` versus
`[1]`), so `Rotate` is not idempotent on the normal rotation path. -/
theorem c5_counterexample :
    (DBState.new.Rotate 2 0).Rotate 2 0 ≠ DBState.new.Rotate 2 0 ∧
    ((DBState.new.Rotate 2 0).Rotate 2 0).closed = [1, 2] ∧
    (DBState.new.Rotate 2 0).closed = [1] := by
  refine ⟨?_, rfl, rfl⟩
  decide

/-! ## Back-pointer chain invariant and termination (C8, C3) -/

/-- An offset is valid for a chain step: either the 0 terminus or the
position of a stored event. -/
def validOff (evs : List (Nat × EventRec)) (o : Nat) : Prop :=
  o = 0 ∨ (elookup evs o).isSome

theorem elookup_mem (evs : List (Nat × EventRec)) (o : Nat) (e : EventRec)
    (h : elookup evs o = some e) : (o, e) ∈ evs := by
  induction evs with
  | nil => simp [elookup] at h
  | cons p rest ih =>
    obtain ⟨o', e'⟩ := p
    by_cases ho : o' = o
    · subst ho
      rw [elookup, if_pos rfl] at h
      exact (Option.some.inj h) ▸ List.mem_cons_self _ _
    · rw [elookup, if_neg ho] at h
      exact List.mem_cons_of_mem _ (ih h)

theorem elookup_append_left (evs l : List (Nat × EventRec)) (o : Nat) (e : EventRec)
    (h : elookup evs o = some e) : elookup (evs ++ l) o = some e := by
  induction evs with
  | nil => simp [elookup] at h
  | cons p rest ih =>
    obtain ⟨o', e'⟩ := p
    by_cases ho : o' = o
    · subst ho
      rw [elookup, if_pos rfl] at h
      rw [List.cons_append, elookup, if_pos rfl]
      exact h
    · rw [elookup, if_neg ho] at h
      rw [List.cons_append, elookup, if_neg ho]
      exact ih h

theorem elookup_append_new (evs : List (Nat × EventRec)) (o : Nat) (e : EventRec)
    (h : ∀ p ∈ evs, p.1 ≠ o) : elookup (evs ++ [(o, e)]) o = some e := by
  induction evs with
  | nil => simp [elookup]
  | cons p rest ih =>
    obtain ⟨o', e'⟩ := p
    have ho : o' ≠ o := h (o', e') (List.mem_cons_self _ _)
    rw [List.cons_append, elookup, if_neg ho]
    exact ih (fun q hq => h q (List.mem_cons_of_mem _ hq))

theorem validOff_append (evs l : List (Nat × EventRec)) (o : Nat)
    (h : validOff evs o) : validOff (evs ++ l) o := by
  rcases h with h0 | hsome
  · exact Or.inl h0
  · obtain ⟨e, he⟩ := Option.isSome_iff_exists.mp hsome
    exact Or.inr (Option.isSome_iff_exists.mpr ⟨e, elookup_append_left evs l o e he⟩)

theorem uvarintLenAux_pos (fuel n : Nat) : 0 < uvarintLenAux fuel n := by
  cases fuel with
  | zero => simp [uvarintLenAux]
  | succ fuel =>
    rw [uvarintLenAux]
    split <;> simp

theorem uvarintLen_pos (n : Nat) : 0 < uvarintLen n :=
  uvarintLenAux_pos n n

theorem eventSize_pos (data : List Nat) (offsets : List (String × Nat)) :
    0 < eventSize data offsets := by
  have h := uvarintLen_pos (uvarintLen offsets.length +
    (offsets.map (fun p => uvarintLen p.1.length + p.1.length + uvarintLen p.2)).sum +
    data.length)
  simp only [eventSize]
  omega

/-- The invariant maintained along every sequence of writes to an open
stream: every stored back-pointer is strictly below its event's offset
and lands on a stored event or 0, every tail is below the write position
and lands on a stored event or 0, event offsets are positive and below
the write position, and the event count equals `length`. -/
structure StreamInv (s : OpenStream) : Prop where
  ev_dec : ∀ p ∈ s.events, ∀ i, mlookup p.2.offsets i < p.1
  ev_valid : ∀ p ∈ s.events, ∀ i, validOff s.events (mlookup p.2.offsets i)
  tails_lt : ∀ i, mlookup s.tails i < s.offset
  tails_valid : ∀ i, validOff s.events (mlookup s.tails i)
  ev_lt : ∀ p ∈ s.events, p.1 < s.offset
  len_eq : s.events.length = s.length
  off_pos : 0 < s.offset

theorem streamInv_fresh : StreamInv freshStream := by
  constructor <;> simp [freshStream, validOff, mlookup, MAGIC_HEADER_LEN]

theorem streamInv_write (s : OpenStream) (data : List Nat) (indexes : List String)
    (hs : StreamInv s) (w : Nat) (s' : OpenStream)
    (hw : s.Write data indexes = .ok (w, s')) : StreamInv s' := by
  by_cases hc : s.closed
  · simp [OpenStream.Write, hc] at hw
  · rw [OpenStream.Write, if_neg hc] at hw
    obtain ⟨hww, hs'⟩ := Prod.mk.inj (Except.ok.inj hw)
    subst hww
    subst hs'
    set om := indexes.foldl (fun m i => minsert m i (mlookup s.tails i)) [] with hom
    have hwpos : 0 < eventSize data om := eventSize_pos data om
    have homl : ∀ j, mlookup om j = if j ∈ indexes then mlookup s.tails j else 0 := by
      intro j
      rw [hom, mlookup_foldl_minsert (fun i => mlookup s.tails i)]
      simp [mlookup]
    have htl : ∀ j,
        mlookup (indexes.foldl (fun m i => minsert m i s.offset) s.tails) j =
          if j ∈ indexes then s.offset else mlookup s.tails j := by
      intro j
      rw [mlookup_foldl_minsert (fun _ => s.offset)]
    have hnotat : ∀ p ∈ s.events, p.1 ≠ s.offset :=
      fun p hp => Nat.ne_of_lt (hs.ev_lt p hp)
    have hnew : elookup (s.events ++ [(s.offset, ⟨data, om⟩)]) s.offset =
        some ⟨data, om⟩ := elookup_append_new s.events s.offset _ hnotat
    constructor
    · dsimp only
      intro p hp i
      rcases List.mem_append.mp hp with hold | hnw
      · exact hs.ev_dec p hold i
      · have hpe : p = (s.offset, ⟨data, om⟩) := by simpa using hnw
        subst hpe
        simp only [homl]
        split
        · exact hs.tails_lt i
        · exact hs.off_pos
    · dsimp only
      intro p hp i
      rcases List.mem_append.mp hp with hold | hnw
      · exact validOff_append _ _ _ (hs.ev_valid p hold i)
      · have hpe : p = (s.offset, ⟨data, om⟩) := by simpa using hnw
        subst hpe
        simp only [homl]
        split
        · exact validOff_append _ _ _ (hs.tails_valid _)
        · exact Or.inl rfl
    · dsimp only
      intro i
      rw [htl]
      split
      · omega
      · have := hs.tails_lt i
        omega
    · dsimp only
      intro i
      rw [htl]
      split
      · exact Or.inr (Option.isSome_iff_exists.mpr ⟨_, hnew⟩)
      · exact validOff_append _ _ _ (hs.tails_valid _)
    · dsimp only
      intro p hp
      rcases List.mem_append.mp hp with hold | hnw
      · have := hs.ev_lt p hold
        omega
      · have hpe : p = (s.offset, ⟨data, om⟩) := by simpa using hnw
        subst hpe
        dsimp only
        omega
    · dsimp only
      simp [hs.len_eq]
    · dsimp only
      have := hs.off_pos
      omega

theorem streamInv_build (ws : List (List Nat × List String)) :
    StreamInv (buildStream ws) := by
  rw [buildStream]
  generalize hst : freshStream = s0
  have h0 : StreamInv s0 := hst ▸ streamInv_fresh
  clear hst
  induction ws generalizing s0 with
  | nil => exact h0
  | cons wr rest ih =>
    rw [List.foldl_cons]
    apply ih
    cases hw : s0.Write wr.1 wr.2 with
    | ok p => simpa [hw] using streamInv_write s0 wr.1 wr.2 h0 p.1 p.2 (by rw [hw])
    | error e => simpa [hw] using h0

theorem length_filter_le_of_imp {α : Type} (l : List α) (p q : α → Bool)
    (h : ∀ x, p x = true → q x = true) :
    (l.filter p).length ≤ (l.filter q).length := by
  induction l with
  | nil => simp
  | cons a l ih =>
    have hih := ih
    by_cases hp : p a = true
    · have hq := h a hp
      simp [List.filter_cons, hp, hq]
      omega
    · by_cases hq : q a = true <;> simp [List.filter_cons, hp, hq] <;> omega

theorem length_filter_lt_of_mem {α : Type} (l : List α) (p q : α → Bool)
    (h : ∀ x, p x = true → q x = true) (x : α) (hx : x ∈ l)
    (hqx : q x = true) (hpx : ¬p x = true) :
    (l.filter p).length < (l.filter q).length := by
  induction l with
  | nil => cases hx
  | cons a l ih =>
    rcases List.mem_cons.mp hx with rfl | hxl
    · have hle := length_filter_le_of_imp l p q h
      simp [List.filter_cons, hqx, hpx]
      omega
    · have hlt := ih hxl
      by_cases hp : p a = true
      · have hq := h a hp
        simp [List.filter_cons, hp, hq]
        omega
      · by_cases hq : q a = true <;> simp [List.filter_cons, hp, hq] <;> omega

/-- The `ScanIndex` chain walk reaches offset 0 whenever every stored
back-pointer strictly decreases and lands on a stored event or 0, with
fuel bounding the number of events at or below the start. -/
theorem scanIndexLoop_isSome (evs : List (Nat × EventRec)) (index : String)
    (scanner : EventRec → Bool)
    (hdec : ∀ p ∈ evs, mlookup p.2.offsets index < p.1)
    (hval : ∀ p ∈ evs, validOff evs (mlookup p.2.offsets index)) :
    ∀ fuel off, validOff evs off →
      (evs.filter (fun p => p.1 ≤ off)).length ≤ fuel →
      (scanIndexLoop evs index scanner off fuel).isSome := by
  intro fuel
  induction fuel with
  | zero =>
    intro off hoff hcount
    by_cases h0 : off = 0
    · subst h0
      simp [scanIndexLoop]
    · exfalso
      rcases hoff with h0' | hsome
      · exact h0 h0'
      · obtain ⟨e, he⟩ := Option.isSome_iff_exists.mp hsome
        have hmem := elookup_mem evs off e he
        have hf : (off, e) ∈ evs.filter (fun p => p.1 ≤ off) :=
          List.mem_filter.mpr ⟨hmem, by simp⟩
        have := List.length_pos.mpr (List.ne_nil_of_mem hf)
        omega
  | succ fuel ih =>
    intro off hoff hcount
    by_cases h0 : off = 0
    · subst h0
      simp [scanIndexLoop]
    · rcases hoff with h0' | hsome
      · exact absurd h0' h0
      · obtain ⟨e, he⟩ := Option.isSome_iff_exists.mp hsome
        have hmem := elookup_mem evs off e he
        have hnext : mlookup e.offsets index < off := hdec (off, e) hmem
        have hcount' :
            (evs.filter (fun p => p.1 ≤ mlookup e.offsets index)).length ≤ fuel := by
          have hlt := length_filter_lt_of_mem evs
            (fun p => p.1 ≤ mlookup e.offsets index) (fun p => p.1 ≤ off)
            (fun x hx => by
              simp only [decide_eq_true_eq] at hx ⊢
              omega)
            (off, e) hmem (by simp) (by simpa using Nat.not_le.mpr hnext)
          omega
        have hrec := ih (mlookup e.offsets index) (hval (off, e) hmem) hcount'
        rw [scanIndexLoop, if_neg h0, he]
        obtain ⟨v, hv⟩ := Option.isSome_iff_exists.mp hrec
        simp [hv]

theorem scanIndexLoop_scanner_indep (evs : List (Nat × EventRec)) (index : String)
    (sc sc' : EventRec → Bool) :
    ∀ fuel off, scanIndexLoop evs index sc off fuel = scanIndexLoop evs index sc' off fuel := by
  intro fuel
  induction fuel with
  | zero => intro off; rfl
  | succ fuel ih =>
    intro off
    by_cases h0 : off = 0
    · subst h0
      rfl
    · rw [scanIndexLoop, scanIndexLoop, if_neg h0, if_neg h0]
      cases elookup evs off with
      | none => rfl
      | some e => simp only [ih]

/-- On every built stream, `ScanIndex` with fuel `length` yields a
result: the chain reaches 0 in at most `length` hops. -/
theorem scanIndex_isSome_of_build (ws : List (List Nat × List String))
    (index : String) (scanner : EventRec → Bool) :
    ((buildStream ws).ScanIndex index scanner).isSome := by
  have hs := streamInv_build ws
  rw [OpenStream.ScanIndex]
  apply scanIndexLoop_isSome _ _ _ (fun p hp => hs.ev_dec p hp index)
    (fun p hp => hs.ev_valid p hp index) _ _ (hs.tails_valid index)
  calc ((buildStream ws).events.filter
          (fun p => p.1 ≤ mlookup (buildStream ws).tails index)).length
      ≤ (buildStream ws).events.length := List.length_filter_le _ _
    _ = (buildStream ws).length := hs.len_eq

/-- Claim C8: on every stream built by a sequence of `Write` calls, the
per-index back-pointer chain is strictly decreasing in offset, and
`ScanIndex` — run with fuel `length` — terminates at 0 in at most
`length` hops, for every index label and every scanner. -/
theorem c8_chain_decreasing_terminates (ws : List (List Nat × List String))
    (index : String) (scanner : EventRec → Bool) :
    (∀ p ∈ (buildStream ws).events, mlookup p.2.offsets index < p.1) ∧
    ((buildStream ws).ScanIndex index scanner).isSome :=
  ⟨fun p hp => (streamInv_build ws).ev_dec p hp index,
    scanIndex_isSome_of_build ws index scanner⟩

/-- Claim C3 counterexample: on a two-event stream whose events both
carry index `"i"`, `ScanIndex` with a scanner that immediately returns
`false` still delivers both chain events — the source discards the
scanner's result, so delivery does not halt when the scanner stops. -/
theorem c3_counterexample :
    OpenStream.ScanIndex (buildStream [([97], ["i"]), ([98], ["i"])]) "i"
        (fun _ => false) =
      some (.ok [⟨[98], [("i", 10)]⟩, ⟨[97], [("i", 0)]⟩]) :=
  rfl

/-- Claim C3 amended: `openStream.ScanIndex` halts only when the chain
offset reaches 0 (which it does, within `length` hops, on every built
stream); the scanner's return value is ignored, so the scan's outcome —
including every event delivered — is the same for any two scanners. -/
theorem c3_scanindex_amended (ws : List (List Nat × List String)) (index : String)
    (sc sc' : EventRec → Bool) :
    (buildStream ws).ScanIndex index sc = (buildStream ws).ScanIndex index sc' ∧
    ((buildStream ws).ScanIndex index sc).isSome := by
  constructor
  · rw [OpenStream.ScanIndex, OpenStream.ScanIndex]
    exact scanIndexLoop_scanner_indep _ _ sc sc' _ _
  · exact scanIndex_isSome_of_build ws index sc

/-! ## Block reader round trip (C6) -/

theorem headerLen_ge_two (B : Nat) : 2 ≤ headerLen B := by
  rw [headerLen]
  split
  · omega
  · split <;> omega

theorem headerLen_bound (B : Nat) (h : B < 2 ^ 64) : B < 256 ^ headerLen B := by
  rw [headerLen]
  split
  · omega
  · split
    · omega
    · calc B < 2 ^ 64 := h
        _ ≤ 256 ^ 8 := by norm_num

theorem leEncode_length (w n : Nat) : (leEncode w n).length = w := by
  induction w generalizing n with
  | zero => rfl
  | succ w ih => simp [leEncode, ih]

theorem leDecode_leEncode (w n : Nat) (h : n < 256 ^ w) :
    leDecode (leEncode w n) = n := by
  induction w generalizing n with
  | zero =>
    simp [leEncode, leDecode]
    omega
  | succ w ih =>
    rw [leEncode, leDecode, ih (n / 256) (by
      rw [Nat.div_lt_iff_lt_mul (by norm_num : 0 < 256)]
      calc n < 256 ^ (w + 1) := h
        _ = 256 ^ w * 256 := by ring)]
    omega

theorem encBlock_length (B : Nat) (p : List Nat) (h : p.length ≤ B) :
    (encBlock B p).length = headerLen B + B := by
  simp [encBlock, leEncode_length]
  omega

theorem writeBlocks_length (B : Nat) (ps : List (List Nat))
    (h : ∀ p ∈ ps, p.length ≤ B) :
    (writeBlocks B ps).length = ps.length * (headerLen B + B) := by
  induction ps with
  | nil => simp [writeBlocks]
  | cons p rest ih =>
    have hp := h p (List.mem_cons_self _ _)
    have hr := ih (fun q hq => h q (List.mem_cons_of_mem _ hq))
    simp only [writeBlocks, List.map_cons, List.flatten_cons, List.length_append,
      List.length_cons]
    rw [encBlock_length B p hp]
    simp only [writeBlocks] at hr
    rw [hr]
    ring

/-- Any `fetch` run over an exhausted underlying reader leaves the
logical buffer untouched: the first iteration reads zero bytes and
returns EOF without parsing. -/
theorem fetchAux_nil_rest (fuel : Nat) (r : Reader) (L : Nat) (h : r.rest = []) :
    ((Reader.fetchAux fuel r L).1).buffer = r.buffer := by
  cases fuel with
  | zero => rfl
  | succ fuel =>
    rw [Reader.fetchAux]
    by_cases hbl : r.buffer.length ≥ L
    · rw [if_pos hbl]
    · rw [if_neg hbl]
      simp [h]

/-- One `parse` over a scratch holding exactly one padded physical block
moves the declared payload to the buffer and leaves the padding in
scratch. -/
theorem parse_encBlock (B : Nat) (h64 : B < 2 ^ 64) (p : List Nat)
    (hpB : p.length ≤ B) (buf rest' : List Nat) :
    Reader.parse { buffer := buf, scratch := encBlock B p, rest := rest', blockSize := B } =
      { buffer := buf ++ p, scratch := List.replicate (B - p.length) 0,
        rest := rest', blockSize := B } := by
  have hlen : (leEncode (headerLen B) p.length).length = headerLen B :=
    leEncode_length _ _
  have htake : (encBlock B p).take (headerLen B) = leEncode (headerLen B) p.length := by
    rw [encBlock, List.append_assoc, List.take_left' hlen]
  have hdrop : (encBlock B p).drop (headerLen B) = p ++ List.replicate (B - p.length) 0 := by
    rw [encBlock, List.append_assoc, List.drop_left' hlen]
  have hdec : leDecode (leEncode (headerLen B) p.length) = p.length :=
    leDecode_leEncode _ _ (Nat.lt_of_le_of_lt hpB (headerLen_bound B h64))
  rw [Reader.parse]
  dsimp only
  rw [htake, hlen]
  simp only [Nat.sub_self, List.replicate_zero, List.append_nil, hdec, hdrop,
    List.take_left, List.drop_left]

/-- One iteration of `fetch` over a block sequence: consume one whole
physical block and parse it. -/
theorem fetchAux_block_step (B f L : Nat) (hB : 0 < B) (h64 : B < 2 ^ 64)
    (p : List Nat) (ps' : List (List Nat)) (buf : List Nat)
    (hpB : p.length ≤ B) (hbl : ¬ buf.length ≥ L) :
    Reader.fetchAux (f + 1)
        { buffer := buf, scratch := [], rest := writeBlocks B (p :: ps'),
          blockSize := B } L =
      Reader.fetchAux f
        { buffer := buf ++ p, scratch := List.replicate (B - p.length) 0,
          rest := writeBlocks B ps', blockSize := B } L := by
  have hencl : (encBlock B p).length = headerLen B + B := encBlock_length B p hpB
  have h2 := headerLen_ge_two B
  have hwb : writeBlocks B (p :: ps') = encBlock B p ++ writeBlocks B ps' := by
    simp [writeBlocks]
  have htake : (writeBlocks B (p :: ps')).take (headerLen B + B) = encBlock B p := by
    rw [hwb, List.take_left' hencl]
  have hdrop : (writeBlocks B (p :: ps')).drop (headerLen B + B) = writeBlocks B ps' := by
    rw [hwb, List.drop_left' hencl]
  rw [Reader.fetchAux]
  dsimp only
  rw [if_neg hbl, htake, hdrop]
  rw [if_pos (by omega : (encBlock B p).length > headerLen B)]
  rw [if_neg (by omega : ¬(encBlock B p).length = 0)]
  rw [List.nil_append]
  rw [parse_encBlock B h64 p hpB buf (writeBlocks B ps')]

/-- Fetching from a well-formed block sequence with full non-final
payloads accumulates exactly the concatenated payloads. -/
theorem fetchAux_writeBlocks (B : Nat) (hB : 0 < B) (h64 : B < 2 ^ 64) :
    ∀ (ps : List (List Nat)) (fuel : Nat) (buf : List Nat) (L : Nat),
      (∀ p ∈ ps, p.length ≤ B) → nonFinalFull B ps →
      buf.length + ps.flatten.length ≤ L →
      ps.length < fuel →
      ((Reader.fetchAux fuel
          { buffer := buf, scratch := [], rest := writeBlocks B ps,
            blockSize := B } L).1).buffer = buf ++ ps.flatten := by
  intro ps
  induction ps with
  | nil =>
    intro fuel buf L _ _ _ _
    rw [fetchAux_nil_rest _ _ _ (by simp [writeBlocks])]
    simp
  | cons p ps' ih =>
    intro fuel buf L hlen hnf hL hfuel
    cases fuel with
    | zero => omega
    | succ f =>
      have hpB : p.length ≤ B := hlen p (List.mem_cons_self _ _)
      by_cases hbl : buf.length ≥ L
      · have hfl : (p :: ps').flatten.length = 0 := by omega
        rw [Reader.fetchAux]
        dsimp only
        rw [if_pos hbl, List.length_eq_zero.mp hfl, List.append_nil]
      · rw [fetchAux_block_step B f L hB h64 p ps' buf hpB hbl]
        cases ps' with
        | nil =>
          rw [fetchAux_nil_rest _ _ _ (by simp [writeBlocks])]
          simp
        | cons q ps'' =>
          have hfull : p.length = B := hnf p (by simp)
          rw [hfull, Nat.sub_self, List.replicate_zero]
          have hres := ih f (buf ++ p) L
            (fun x hx => hlen x (List.mem_cons_of_mem _ hx))
            (fun x hx => hnf x (by
              rw [List.dropLast_cons₂]
              exact List.mem_cons_of_mem _ hx))
            (by simp at hL ⊢; omega)
            (by simp at hfuel ⊢; omega)
          rw [hres, List.append_assoc]
          simp

/-- Claim C6 amended: for every well-formed sequence of fixed-width
physical blocks in which every non-final block carries a full
`blockSize` payload (only the final block may be short), reading
through `blocks.Reader.Read` yields exactly the concatenation of the
blocks' declared payloads, in order. -/
theorem c6_read_concat_amended (B : Nat) (ps : List (List Nat)) (L : Nat)
    (hB : 0 < B) (h64 : B < 2 ^ 64)
    (hlen : ∀ p ∈ ps, p.length ≤ B) (hnf : nonFinalFull B ps)
    (hL : ps.flatten.length ≤ L) :
    (Reader.read (mkReader (writeBlocks B ps) B) L).1 = ps.flatten := by
  have hfuel : ps.length < (writeBlocks B ps).length + 1 := by
    rw [writeBlocks_length B ps hlen]
    have h2 := headerLen_ge_two B
    calc ps.length = ps.length * 1 := (Nat.mul_one _).symm
      _ ≤ ps.length * (headerLen B + B) := Nat.mul_le_mul_left _ (by omega)
      _ < _ + 1 := Nat.lt_succ_self _
  have hmain := fetchAux_writeBlocks B hB h64 ps ((writeBlocks B ps).length + 1) [] L
    hlen hnf (by simpa using hL) hfuel
  rw [Reader.read, Reader.fetch, mkReader]
  dsimp only
  rw [hmain, List.nil_append]
  exact List.take_of_length_le hL

/-- Claim C6 amended witness: a full block `[1,2,3,4]` followed by a
short final block `[9]` at block size 4 reads back as
`[1,2,3,4,9]`. -/
theorem c6_read_concat_amended_witness :
    (0 : Nat) < 4 ∧ (4 : Nat) < 2 ^ 64 ∧
    (∀ p ∈ ([[1, 2, 3, 4], [9]] : List (List Nat)), p.length ≤ 4) ∧
    nonFinalFull 4 [[1, 2, 3, 4], [9]] ∧
    ([[1, 2, 3, 4], [9]] : List (List Nat)).flatten.length ≤ 5 ∧
    (Reader.read (mkReader (writeBlocks 4 [[1, 2, 3, 4], [9]]) 4) 5).1 =
      ([[1, 2, 3, 4], [9]] : List (List Nat)).flatten :=
  ⟨by decide, by norm_num, by decide, by unfold nonFinalFull; decide, by decide,
    c6_read_concat_amended 4 [[1, 2, 3, 4], [9]] 5 (by decide) (by norm_num)
      (by decide) (by unfold nonFinalFull; decide) (by decide)⟩

/-! ## Rotate idempotence on the replay path (C5) -/

theorem mem_addClosed_self (cl : List Nat) (c : Nat) : c ∈ addClosed cl c := by
  rw [addClosed]
  split
  · assumption
  · simp

theorem addClosed_idem (cl : List Nat) (c : Nat) :
    addClosed (addClosed cl c) c = addClosed cl c := by
  rw [addClosed, if_pos (mem_addClosed_self cl c)]

/-- Claim C5 amended: `Rotate(c, t)` is idempotent on every state where
a closed file already exists at commit `c` and the live open handle is
not at `c` — the replay path; both applications adopt the closed file
and leave an identical state. -/
theorem c5_rotate_idempotent_amended (db : DBState) (c t : Nat) (f : OpenStream)
    (hf : flookup db.files c = some f) (hcl : f.closed = true)
    (hnc : ¬(db.current = c ∧ db.hasStream = true)) :
    (db.Rotate c t).Rotate c t = db.Rotate c t := by
  by_cases hc : c ∈ db.cache
  · simp [DBState.Rotate, DBState.retrieveStream, hf, hcl, hnc, hc, addClosed_idem]
  · simp [DBState.Rotate, DBState.retrieveStream, hf, hcl, hnc, hc, addClosed_idem]

/-- Claim C5 amended witness: after `NewDb; Rotate(2,0)` the file at
commit 1 is closed on disk and the live handle is at commit 2, so a
replayed `Rotate(1, 0)` is idempotent. -/
theorem c5_rotate_idempotent_amended_witness :
    flookup (DBState.new.Rotate 2 0).files 1 =
      some ⟨[], true, 10, 0, []⟩ ∧
    (⟨[], true, 10, 0, []⟩ : OpenStream).closed = true ∧
    ¬((DBState.new.Rotate 2 0).current = 1 ∧ (DBState.new.Rotate 2 0).hasStream = true) ∧
    ((DBState.new.Rotate 2 0).Rotate 1 0).Rotate 1 0 =
      (DBState.new.Rotate 2 0).Rotate 1 0 :=
  ⟨by decide, rfl, by decide,
    c5_rotate_idempotent_amended (DBState.new.Rotate 2 0) 1 0 ⟨[], true, 10, 0, []⟩
      (by decide) rfl (by decide)⟩

/-! ## DB state-machine invariant (C4) -/

theorem flookup_mem (fs : List (Nat × OpenStream)) (c : Nat) (f : OpenStream)
    (h : flookup fs c = some f) : (c, f) ∈ fs := by
  induction fs with
  | nil => simp [flookup] at h
  | cons p rest ih =>
    obtain ⟨c', f'⟩ := p
    by_cases hc : c' = c
    · subst hc
      rw [flookup, if_pos rfl] at h
      exact (Option.some.inj h) ▸ List.mem_cons_self _ _
    · rw [flookup, if_neg hc] at h
      exact List.mem_cons_of_mem _ (ih h)

theorem flookup_eq_none (fs : List (Nat × OpenStream)) (c : Nat)
    (h : ∀ p ∈ fs, p.1 ≠ c) : flookup fs c = none := by
  induction fs with
  | nil => rfl
  | cons p rest ih =>
    rw [flookup, if_neg (h p (List.mem_cons_self _ _))]
    exact ih (fun q hq => h q (List.mem_cons_of_mem _ hq))

theorem flookup_append (l1 l2 : List (Nat × OpenStream)) (c : Nat) :
    flookup (l1 ++ l2) c =
      match flookup l1 c with
      | some f => some f
      | none => flookup l2 c := by
  induction l1 with
  | nil => simp [flookup]
  | cons p rest ih =>
    obtain ⟨c', f'⟩ := p
    by_cases hc : c' = c
    · subst hc
      rw [List.cons_append, flookup, if_pos rfl, flookup, if_pos rfl]
    · rw [List.cons_append, flookup, if_neg hc, flookup, if_neg hc, ih]

theorem flookup_fdelete_self (fs : List (Nat × OpenStream)) (c : Nat) :
    flookup (fdelete fs c) c = none := by
  induction fs with
  | nil => rfl
  | cons p rest ih =>
    obtain ⟨a, f⟩ := p
    by_cases ha : a = c
    · rw [fdelete, if_pos ha]
      exact ih
    · rw [fdelete, if_neg ha, flookup, if_neg ha]
      exact ih

theorem flookup_fdelete_ne (fs : List (Nat × OpenStream)) (c c' : Nat)
    (h : c' ≠ c) : flookup (fdelete fs c) c' = flookup fs c' := by
  induction fs with
  | nil => rfl
  | cons p rest ih =>
    obtain ⟨a, f⟩ := p
    by_cases ha : a = c
    · subst ha
      have hne : ¬a = c' := fun hh => h hh.symm
      rw [fdelete, if_pos rfl, flookup, if_neg hne]
      exact ih
    · rw [fdelete, if_neg ha, flookup, flookup]
      by_cases ha' : a = c'
      · rw [if_pos ha', if_pos ha']
      · rw [if_neg ha', if_neg ha']
        exact ih

theorem mem_fdelete (fs : List (Nat × OpenStream)) (c : Nat) (p : Nat × OpenStream)
    (hp : p ∈ fdelete fs c) : p ∈ fs := by
  induction fs with
  | nil => cases hp
  | cons q rest ih =>
    obtain ⟨a, f⟩ := q
    by_cases ha : a = c
    · rw [fdelete, if_pos ha] at hp
      exact List.mem_cons_of_mem _ (ih hp)
    · rw [fdelete, if_neg ha] at hp
      rcases List.mem_cons.mp hp with rfl | hp'
      · exact List.mem_cons_self _ _
      · exact List.mem_cons_of_mem _ (ih hp')

theorem flookup_fset_self (fs : List (Nat × OpenStream)) (c : Nat) (f : OpenStream) :
    flookup (fset fs c f) c = some f := by
  rw [fset, flookup_append, flookup_fdelete_self]
  simp [flookup]

theorem flookup_fset_ne (fs : List (Nat × OpenStream)) (c c' : Nat) (f : OpenStream)
    (h : c' ≠ c) : flookup (fset fs c f) c' = flookup fs c' := by
  rw [fset, flookup_append, flookup_fdelete_ne fs c c' h]
  cases hl : flookup fs c' with
  | some g => rfl
  | none =>
    rw [flookup, if_neg (fun hh : c = c' => h hh.symm)]
    rfl

theorem flookup_fclose_ne (fs : List (Nat × OpenStream)) (c c' : Nat)
    (h : c' ≠ c) : flookup (fclose fs c) c' = flookup fs c' := by
  induction fs with
  | nil => rfl
  | cons p rest ih =>
    obtain ⟨a, f⟩ := p
    by_cases ha : a = c
    · subst ha
      have hne : ¬a = c' := fun hh => h hh.symm
      rw [fclose, if_pos rfl, flookup, if_neg hne, flookup, if_neg hne]
      exact ih
    · rw [fclose, if_neg ha, flookup, flookup]
      by_cases ha' : a = c'
      · rw [if_pos ha', if_pos ha']
      · rw [if_neg ha', if_neg ha']
        exact ih

theorem mem_fclose (fs : List (Nat × OpenStream)) (c : Nat) (p : Nat × OpenStream)
    (hp : p ∈ fclose fs c) : ∃ q ∈ fs, p.1 = q.1 := by
  induction fs with
  | nil => cases hp
  | cons q rest ih =>
    obtain ⟨a, f⟩ := q
    by_cases ha : a = c
    · rw [fclose, if_pos ha] at hp
      rcases List.mem_cons.mp hp with rfl | hp'
      · exact ⟨(a, f), List.mem_cons_self _ _, rfl⟩
      · obtain ⟨q, hq, hfst⟩ := ih hp'
        exact ⟨q, List.mem_cons_of_mem _ hq, hfst⟩
    · rw [fclose, if_neg ha] at hp
      rcases List.mem_cons.mp hp with rfl | hp'
      · exact ⟨(a, f), List.mem_cons_self _ _, rfl⟩
      · obtain ⟨q, hq, hfst⟩ := ih hp'
        exact ⟨q, List.mem_cons_of_mem _ hq, hfst⟩

theorem mem_addClosed (cl : List Nat) (c x : Nat) (hx : x ∈ addClosed cl c) :
    x ∈ cl ∨ x = c := by
  rw [addClosed] at hx
  split at hx
  · exact Or.inl hx
  · rcases List.mem_append.mp hx with h | h
    · exact Or.inl h
    · exact Or.inr (by simpa using h)

theorem mem_foldl_addClosed (l : List Nat) :
    ∀ (cl : List Nat) (x : Nat), x ∈ l.foldl addClosed cl → x ∈ cl ∨ x ∈ l := by
  induction l with
  | nil => intro cl x hx; exact Or.inl hx
  | cons a rest ih =>
    intro cl x hx
    rw [List.foldl_cons] at hx
    rcases ih (addClosed cl a) x hx with h | h
    · rcases mem_addClosed cl a x h with h' | h'
      · exact Or.inl h'
      · exact Or.inr (h' ▸ List.mem_cons_self _ _)
    · exact Or.inr (List.mem_cons_of_mem _ h)

theorem OpenStream.Write_ok_closed (f : OpenStream) (d : List Nat) (idx : List String)
    (w : Nat) (f' : OpenStream) (h : f.Write d idx = .ok (w, f')) :
    f'.closed = false ∧ f.closed = false := by
  by_cases hc : f.closed
  · simp [OpenStream.Write, hc] at h
  · rw [OpenStream.Write, if_neg hc] at h
    obtain ⟨_, h2⟩ := Prod.mk.inj (Except.ok.inj h)
    have hcf : f.closed = false := by simpa using hc
    subst h2
    exact ⟨hcf, hcf⟩

/-- One applied consensus log entry or administrative operation. -/
inductive DBOp where
  | write (commit : Nat) (body : List Nat) (indexes : List (String × String)) (timestamp : Int)
  | rotate (commit term : Nat)
  | recovery (current : Nat) (mostRecent : Int) (closedList : List Nat)
  | compress (start stop : Nat)

/-- Apply one operation, requiring the normal-operation conditions under
which the invariant claim is sound: rotations and recoveries move to
commits strictly above the current one, and a recovery blob's closed
list lies strictly below its restored current commit.  A fatal stream
error also yields `none`. -/
def applyOp (db : DBState) : DBOp → Option DBState
  | .write c b i t => (db.Write c b i t).toOption
  | .rotate c t => if db.current < c then some (db.Rotate c t) else none
  | .recovery c m l =>
    if db.current < c ∧ l.all (· < c) then some (db.Recovery c m l) else none
  | .compress s e => some (db.Compress s e)

/-- Apply a sequence of operations to a DB. -/
def applyOps (db : DBState) (ops : List DBOp) : Option DBState :=
  ops.foldl (fun acc op => acc.bind (fun d => applyOp d op)) (some db)

/-- Invariant of the stream-manager state machine under normal
operation: every closed commit is strictly below `current`, all on-disk
files sit at commits at most `current` with the file at `current` open,
every cached handle refers to a closed on-disk file, and a live stream
handle exists. -/
structure DBInv (db : DBState) : Prop where
  closed_lt : ∀ c ∈ db.closed, c < db.current
  files_le : ∀ p ∈ db.files, p.1 ≤ db.current
  file_at_current_open : ∀ p ∈ db.files, p.1 = db.current → p.2.closed = false
  cache_closed : ∀ c ∈ db.cache, (flookup db.files c).map (·.closed) = some true
  has_stream : db.hasStream = true

theorem dbInv_new : DBInv DBState.new := by
  constructor <;> decide

theorem mem_fdelete_ne (fs : List (Nat × OpenStream)) (c : Nat) (p : Nat × OpenStream)
    (hp : p ∈ fdelete fs c) : p.1 ≠ c := by
  induction fs with
  | nil => cases hp
  | cons q rest ih =>
    obtain ⟨a, f⟩ := q
    by_cases ha : a = c
    · rw [fdelete, if_pos ha] at hp
      exact ih hp
    · rw [fdelete, if_neg ha] at hp
      rcases List.mem_cons.mp hp with rfl | hp'
      · exact ha
      · exact ih hp'

theorem dbInv_mostRecent (db : DBState) (m : Int) (h : DBInv db) :
    DBInv { db with mostRecent := m } :=
  ⟨h.closed_lt, h.files_le, h.file_at_current_open, h.cache_closed, h.has_stream⟩

theorem cache_ne_current (db : DBState) (h : DBInv db) (c : Nat) (hc : c ∈ db.cache) :
    c ≠ db.current := by
  intro hec
  have hcc := h.cache_closed c hc
  cases hf : flookup db.files c with
  | none => rw [hf] at hcc; simp at hcc
  | some g =>
    rw [hf] at hcc
    have hgc : g.closed = true := by simpa using hcc
    have hmem := flookup_mem _ _ _ hf
    have h2 : g.closed = false := h.file_at_current_open (c, g) hmem hec
    rw [h2] at hgc
    simp at hgc

theorem dbInv_set_file (db : DBState) (h : DBInv db) (f' : OpenStream)
    (hf' : f'.closed = false) :
    DBInv { db with files := fset db.files db.current f' } := by
  constructor
  · exact h.closed_lt
  · intro p hp
    rcases List.mem_append.mp hp with hl | hr
    · exact h.files_le p (mem_fdelete _ _ _ hl)
    · have : p = (db.current, f') := by simpa using hr
      subst this
      exact Nat.le_refl _
  · intro p hp hcur
    rcases List.mem_append.mp hp with hl | hr
    · exact absurd hcur (mem_fdelete_ne _ _ _ hl)
    · have : p = (db.current, f') := by simpa using hr
      subst this
      exact hf'
  · intro c hc
    have hne := cache_ne_current db h c hc
    dsimp only
    rw [flookup_fset_ne _ _ _ _ hne]
    exact h.cache_closed c hc
  · exact h.has_stream

theorem dbInv_write (db : DBState) (c : Nat) (b : List Nat)
    (i : List (String × String)) (t : Int) (hinv : DBInv db) (db' : DBState)
    (h : db.Write c b i t = .ok db') : DBInv db' := by
  rw [DBState.Write] at h
  by_cases hle : c ≤ db.current
  · rw [if_pos hle] at h
    exact (Except.ok.inj h) ▸ hinv
  · rw [if_neg hle] at h
    rw [if_neg (by simp [hinv.has_stream])] at h
    cases hf : flookup db.files db.current with
    | none => rw [hf] at h; simp at h
    | some f =>
      rw [hf] at h
      dsimp only at h
      cases hfw : f.Write b (i.map streamIndex) with
      | error e => rw [hfw] at h; simp at h
      | ok p =>
        rw [hfw] at h
        obtain ⟨w, f'⟩ := p
        have hcl := (OpenStream.Write_ok_closed f _ _ w f' hfw).1
        have hinv2 := dbInv_set_file db hinv f' hcl
        dsimp only at h
        split at h
        · exact (Except.ok.inj h) ▸ dbInv_mostRecent _ t hinv2
        · exact (Except.ok.inj h) ▸ hinv2

theorem dbInv_rotate (db : DBState) (c t : Nat) (hinv : DBInv db)
    (hlt : db.current < c) : DBInv (db.Rotate c t) := by
  have hne : ¬(db.current = c ∧ db.hasStream = true) :=
    fun hp => absurd hp.1 (Nat.ne_of_lt hlt)
  have hnof : flookup db.files c = none := by
    cases hf : flookup db.files c with
    | none => rfl
    | some g =>
      have := hinv.files_le (c, g) (flookup_mem _ _ _ hf)
      omega
  have hnc : c ∉ db.cache := by
    intro hc
    have := hinv.cache_closed c hc
    rw [hnof] at this
    simp at this
  have hret : db.retrieveStream c false = (none, db, some .noSuchFile) := by
    rw [DBState.retrieveStream, if_neg hne, if_neg hnc, hnof]
    rfl
  rw [DBState.Rotate, hret]
  dsimp only
  rw [if_pos hinv.has_stream]
  rw [DBState.setCurrent]
  constructor
  · intro x hx
    dsimp only at hx ⊢
    rcases mem_addClosed _ _ _ hx with hx' | hx'
    · have := hinv.closed_lt x hx'
      omega
    · omega
  · intro p hp
    dsimp only at hp ⊢
    rcases List.mem_append.mp hp with hl | hr
    · obtain ⟨q, hq, hfst⟩ := mem_fclose _ _ _ (mem_fdelete _ _ _ hl)
      have := hinv.files_le q hq
      omega
    · have : p = (c, freshStream) := by simpa using hr
      subst this
      exact Nat.le_refl _
  · intro p hp hcur
    dsimp only at hp hcur ⊢
    rcases List.mem_append.mp hp with hl | hr
    · exact absurd hcur (mem_fdelete_ne _ _ _ hl)
    · have : p = (c, freshStream) := by simpa using hr
      subst this
      rfl
  · intro x hx
    dsimp only at hx ⊢
    have hxnecur := cache_ne_current db hinv x hx
    have hxnec : x ≠ c := by
      intro hxc
      subst hxc
      have := hinv.cache_closed x hx
      rw [hnof] at this
      simp at this
    rw [flookup_fset_ne _ _ _ _ hxnec, flookup_fclose_ne _ _ _ hxnecur]
    exact hinv.cache_closed x hx
  · rfl

theorem dbInv_recovery (db : DBState) (c : Nat) (m : Int) (l : List Nat)
    (hinv : DBInv db) (hlt : db.current < c) (hl : ∀ x ∈ l, x < c) :
    DBInv (db.Recovery c m l) := by
  rw [DBState.Recovery, DBState.setCurrent]
  constructor
  · intro x hx
    dsimp only at hx ⊢
    rcases mem_foldl_addClosed l _ x hx with hx' | hx'
    · have := hinv.closed_lt x hx'
      omega
    · exact hl x hx'
  · intro p hp
    dsimp only at hp ⊢
    rcases List.mem_append.mp hp with hl' | hr
    · have := hinv.files_le p (mem_fdelete _ _ _ hl')
      omega
    · have : p = (c, freshStream) := by simpa using hr
      subst this
      exact Nat.le_refl _
  · intro p hp hcur
    dsimp only at hp hcur ⊢
    rcases List.mem_append.mp hp with hl' | hr
    · exact absurd hcur (mem_fdelete_ne _ _ _ hl')
    · have : p = (c, freshStream) := by simpa using hr
      subst this
      rfl
  · intro x hx
    dsimp only at hx ⊢
    have hxnec : x ≠ c := by
      intro hxc
      subst hxc
      have hcc := hinv.cache_closed x hx
      cases hf : flookup db.files x with
      | none => rw [hf] at hcc; simp at hcc
      | some g =>
        have := hinv.files_le (x, g) (flookup_mem _ _ _ hf)
        omega
    rw [flookup_fset_ne _ _ _ _ hxnec]
    exact hinv.cache_closed x hx
  · rfl

theorem dbInv_compress (db : DBState) (s e : Nat) (hinv : DBInv db) :
    DBInv (db.Compress s e) := by
  rw [DBState.Compress]
  constructor
  · intro x hx
    dsimp only at hx ⊢
    exact hinv.closed_lt x (List.mem_filter.mp hx).1
  · exact hinv.files_le
  · exact hinv.file_at_current_open
  · intro x hx
    dsimp only at hx ⊢
    exact hinv.cache_closed x (List.mem_filter.mp (List.mem_filter.mp hx).1).1
  · exact hinv.has_stream

theorem dbInv_applyOp (db : DBState) (op : DBOp) (db' : DBState)
    (hinv : DBInv db) (h : applyOp db op = some db') : DBInv db' := by
  cases op with
  | write c b i t =>
    rw [applyOp] at h
    cases hw : db.Write c b i t with
    | error e => rw [hw] at h; simp [Except.toOption] at h
    | ok d =>
      rw [hw] at h
      have : d = db' := by simpa [Except.toOption] using h
      exact this ▸ dbInv_write db c b i t hinv d hw
  | rotate c t =>
    rw [applyOp] at h
    split at h
    · exact (Option.some.inj h) ▸ dbInv_rotate db c t hinv (by assumption)
    · cases h
  | recovery c m l =>
    rw [applyOp] at h
    split at h
    · rename_i hcond
      exact (Option.some.inj h) ▸
        dbInv_recovery db c m l hinv hcond.1 (fun x hx => by
          have := List.all_eq_true.mp hcond.2 x hx
          simpa using this)
    · cases h
  | compress s e =>
    rw [applyOp] at h
    exact (Option.some.inj h) ▸ dbInv_compress db s e hinv

theorem dbInv_applyOps (ops : List DBOp) :
    ∀ (db db' : DBState), DBInv db → applyOps db ops = some db' → DBInv db' := by
  induction ops with
  | nil =>
    intro db db' hinv h
    rw [applyOps, List.foldl_nil] at h
    exact (Option.some.inj h) ▸ hinv
  | cons op rest ih =>
    intro db db' hinv h
    rw [applyOps, List.foldl_cons] at h
    cases hop : applyOp db op with
    | none =>
      rw [Option.some_bind, hop] at h
      have : ∀ (l : List DBOp),
          l.foldl (fun acc op => acc.bind (fun d => applyOp d op)) none = none := by
        intro l
        induction l with
        | nil => rfl
        | cons o r ihr => rw [List.foldl_cons, Option.none_bind]; exact ihr
      rw [this rest] at h
      cases h
    | some d =>
      rw [Option.some_bind, hop] at h
      exact ih d db' (dbInv_applyOp db op d hinv hop) h

/-- Claim C4 amended: after every sequence of Write, Rotate, Recovery
and Compress operations from a fresh DB in which every Rotate and
Recovery moves to a commit strictly above the current one and every
Recovery blob's closed list lies strictly below its restored commit,
the commit stored in `current` is never a member of `closed`. -/
theorem c4_invariant_amended (ops : List DBOp) (db : DBState)
    (h : applyOps DBState.new ops = some db) : db.current ∉ db.closed := by
  intro hmem
  have hinv := dbInv_applyOps ops DBState.new db dbInv_new h
  exact absurd (hinv.closed_lt db.current hmem) (Nat.lt_irrefl _)

/-- A concrete normal-operation history: a write, a rotation to a fresh
commit, a compression, and a well-formed recovery. -/
def c4ops : List DBOp :=
  [.write 2 [97] [("u", "1")] 100, .rotate 3 1, .compress 1 2, .recovery 7 5 [3, 4]]

/-- The DB state reached by `c4ops`. -/
def c4res : DBState :=
  (applyOps DBState.new c4ops).getD DBState.new

/-- Claim C4 amended witness: the invariant holds at the state reached
by the concrete history `c4ops`. -/
theorem c4_invariant_amended_witness :
    applyOps DBState.new c4ops = some c4res ∧ c4res.current ∉ c4res.closed :=
  ⟨rfl, c4_invariant_amended c4ops c4res rfl⟩
